import Mathlib

/-!
Verification development for the BIDS filename codec of `pynisurf`
(`src/pynisurf/bids.py`): the pair `fn2info` / `info2fn`.

Strings are modelled as `List Char`.  The Python functions are embedded as
executable Lean functions:

* `fn2info` follows `bids.py` lines 160-193.  The final parsing loop calls
  `re.search(value_sep, isec).start()`, which raises `AttributeError` when the
  search fails; that fallible step is modelled with `Option` (`none` = raised).
  `str.split('')` raises `ValueError`, modelled by `none` for an empty section
  separator.  `re.search` is modelled as literal first-substring search, which
  agrees with the source exactly for patterns free of regex metacharacters
  (`regexMetachars`): the defaults `'_'`, `'-'` and the escaped `'\.'` are such
  patterns, and any theorem below that quantifies over value separators
  carries a `regexMetachars`-freeness hypothesis restricting it to that
  domain.
* Python's `dict` is modelled as an association list with unique keys kept in
  insertion order; assignment `d[k] = v` is `insertA` (update in place when the
  key exists, append otherwise), `d.pop(k)` is `popKey`, `k in d` / `d[k]` is
  `lookupA`.
* `os.path.basename` (POSIX) is the substring after the last `'/'`.
* `'custom%d' % n` is `customKey n`, using a decimal digit rendering.
* `info2fn` (`bids.py` lines 196-235) mutates its argument (`info.pop('ext')`);
  it is embedded as a state-passing function returning the produced filename
  together with the dictionary as it is left in the caller.
-/

set_option maxRecDepth 10000

namespace Pynisurf

/-- Strings of the embedding: lists of characters. -/
abbrev Str := List Char

/-- Association list with string keys and values, in insertion order:
the model of a Python `dict` of strings. -/
abbrev InfoMap := List (Str × Str)

/-- `os.path.basename` on POSIX: everything after the last `'/'`. -/
def basename (s : Str) : Str :=
  (s.reverse.takeWhile (fun c => c ≠ '/')).reverse

/-- Index of the first occurrence of `t` as a contiguous substring of `s`
(`re.search(t, s).start()` for a literal pattern `t`; `none` when absent). -/
def findSubstr (t : Str) : Str → Option Nat
  | [] => if t.isPrefixOf ([] : Str) then some 0 else none
  | c :: rest =>
    if t.isPrefixOf (c :: rest) then some 0
    else (findSubstr t rest).map (· + 1)

/-- The metacharacters of Python regular expressions
(`. ^ $ * + ? { } [ ] \ | ( )`).  `re.search(p, s)` with a pattern `p` that is
free of these characters is a literal first-substring search, which is the
domain on which `findSubstr` models `re.search(value_sep, isec)` at
`bids.py` line 189; on patterns containing them, `re.search` interprets the
pattern as a regular expression (or raises `re.error`) and `findSubstr` is not
a model of it. -/
def regexMetachars : List Char :=
  ['.', '^', '$', '*', '+', '?', Char.ofNat 123, Char.ofNat 125,
   '[', ']', Char.ofNat 92, '|', '(', ')']

/-- Fuel-driven worker for `splitOnSub`. -/
def splitOnSubAux (sep : Str) : Nat → Str → List Str
  | 0, s => [s]
  | fuel + 1, s =>
    match findSubstr sep s with
    | none => [s]
    | some i => s.take i :: splitOnSubAux sep fuel (s.drop (i + sep.length))

/-- Python `s.split(sep)` for a non-empty separator `sep`: split at every
non-overlapping occurrence of `sep`, left to right.  (Callers guard the
empty-separator case, where Python raises `ValueError`.) -/
def splitOnSub (sep s : Str) : List Str :=
  splitOnSubAux sep (s.length + 1) s

/-- The character for decimal digit `n % 10`. -/
def digitChar (n : Nat) : Char := Char.ofNat (48 + n % 10)

/-- Fuel-driven worker for `natRepr`. -/
def natReprAux : Nat → Nat → Str → Str
  | 0, _, acc => acc
  | fuel + 1, n, acc =>
    if n < 10 then digitChar n :: acc
    else natReprAux fuel (n / 10) (digitChar (n % 10) :: acc)

/-- Decimal rendering of a natural number (Python `'%d' % n`). -/
def natRepr (n : Nat) : Str := natReprAux (n + 1) n []

/-- The synthesized key `'custom%d' % n`. -/
def customKey (n : Nat) : Str := "custom".toList ++ natRepr n

/-- The reserved synthesized key `'modality'`. -/
def modalityKey : Str := "modality".toList

/-- The reserved extension key `'ext'`. -/
def extKey : Str := "ext".toList

/-- The default modality vocabulary of `fn2info` (17 tokens). -/
def modalityDefault : List Str :=
  ["bold", "sbref", "epi", "T1w", "T2w",
   "scans", "events",
   "inflated", "midthickness", "pial", "smoothwm", "probseg",
   "timeseries", "xfm", "boldref", "dseg", "mask"].map String.toList

/-- Splitting of the base name at the first `'.'`: the pair (stem, extension).
Embeds `bids.py` lines 164-168 (`re.search('\.', fname)`). -/
def stemExt (filename : Str) : Str × Str :=
  let fname := basename filename
  let idx := (findSubstr ['.'] fname).getD fname.length
  (fname.take idx, fname.drop idx)

/-- The list `sec` of `bids.py` line 171: the stem split at the section
separator. -/
def sectionsOf (filename : Str) (secSep : Str) : List Str :=
  splitOnSub secSep (stemExt filename).1

/-- One round of the final parsing loop of `fn2info`: split a section at the
first occurrence of `valueSep`, the value starting one character after the
match start (`isec[:idx.start()]` / `isec[idx.start()+1:]`).  `none` models the
`AttributeError` raised when the search fails. -/
def splitEntry (valueSep : Str) (isec : Str) : Option (Str × Str) :=
  (findSubstr valueSep isec).map (fun i => (isec.take i, isec.drop (i + 1)))

/-- Python's guard `no_fieldname[-1]==True & (sec[-1] in modality)`
(`bids.py` line 178).  `&` binds tighter than `==` in Python, so the guard
parses as `no_fieldname[-1] == (sec[-1] in modality)`, a boolean equality. -/
def lastIsModality (sec : List Str) (valueSep : Str) (modality : List Str) : Bool :=
  (sec.map (fun e => (findSubstr valueSep e).isNone)).getLastD false
    == decide (sec.getLastD [] ∈ modality)

/-- The section-rewriting phase of `fn2info` (lines 174-184): sections lacking
the value separator are prefixed with their backup field name
(`custom<i+1>`, or `modality` for a qualifying last section) followed by
`valueSep`. -/
def mkSections (sec : List Str) (valueSep : Str) (modality : List Str) : List Str :=
  let noField := sec.map (fun e => (findSubstr valueSep e).isNone)
  let backup0 := (List.range sec.length).map (fun x => customKey (x + 1))
  let backup :=
    if lastIsModality sec valueSep modality
    then backup0.set (backup0.length - 1) modalityKey
    else backup0
  (sec.zip (noField.zip backup)).map
    (fun p => if p.2.1 then p.2.2 ++ valueSep ++ p.1 else p.1)

/-- The final parsing loop of `fn2info` (lines 187-190) over the rewritten
sections: `none` models the `AttributeError` raised when some section does not
contain the value separator. -/
def collectEntries (valueSep : Str) : List Str → Option (List (Str × Str))
  | [] => some []
  | s :: rest =>
    match splitEntry valueSep s, collectEntries valueSep rest with
    | some kv, some es => some (kv :: es)
    | _, _ => none

/-- The ordered list of `(key, value)` entries produced by `fn2info` for the
stem sections, before dictionary insertion (lines 169-190).  `none` models a
raised exception. -/
def fn2infoSections (filename : Str) (secSep valueSep : Str)
    (modality : List Str) : Option (List (Str × Str)) :=
  if secSep = [] then none
  else
    collectEntries valueSep
      (mkSections (sectionsOf filename secSep) valueSep modality)

/-- Python `d[k] = v`: update the value in place when `k` is present,
append `(k, v)` otherwise. -/
def insertA (m : InfoMap) (k v : Str) : InfoMap :=
  match m with
  | [] => [(k, v)]
  | (a, b) :: t => if a = k then (a, v) :: t else (a, b) :: insertA t k v

/-- Python `d[k]` / `k in d` (keys are unique in a dict, so first = only). -/
def lookupA (m : InfoMap) (k : Str) : Option Str :=
  match m with
  | [] => none
  | (a, b) :: t => if a = k then some b else lookupA t k

/-- Python `d.pop(k)`: remove the (unique) entry with key `k`. -/
def popKey (m : InfoMap) (k : Str) : InfoMap :=
  match m with
  | [] => []
  | (a, b) :: t => if a = k then t else (a, b) :: popKey t k

/-- Build the `info` dictionary by successive `info[key] = value` insertions. -/
def buildDict (es : List (Str × Str)) : InfoMap :=
  es.foldl (fun m kv => insertA m kv.1 kv.2) []

/-- Embedding of `fn2info` (`bids.py` lines 130-193): parse a filename into an
ordered key-value dictionary, the `'ext'` entry inserted last.  `none` models a
raised exception (never reached with the default separators). -/
def fn2info (filename : Str) (secSep valueSep : Str)
    (modality : List Str) : Option InfoMap :=
  (fn2infoSections filename secSep valueSep modality).map
    (fun es => insertA (buildDict es) extKey (stemExt filename).2)

/-- Python `sec_sep.join(sec)`. -/
def joinSep (sep : Str) : List Str → Str
  | [] => []
  | [x] => x
  | x :: xs => x ++ sep ++ joinSep sep xs

/-- The section-emitting loop of `info2fn` (lines 226-232): synthetic keys
(`custom*` and `modality`) emit the bare value, other keys emit
`key ++ valueSep ++ value`; sections are joined with `secSep`. -/
def mkFn (m : InfoMap) (secSep valueSep : Str) : Str :=
  joinSep secSep
    (m.map (fun kv =>
      if "custom".toList.isPrefixOf kv.1 || kv.1 = modalityKey
      then kv.2
      else kv.1 ++ valueSep ++ kv.2))

/-- Embedding of `info2fn` (`bids.py` lines 196-235).  The Python function
mutates its argument (`info.pop('ext')`); the state-passing embedding returns
the produced filename together with the dictionary as the caller is left
with it. -/
def info2fn (info : InfoMap) (secSep valueSep : Str) : Str × InfoMap :=
  match lookupA info extKey with
  | some e =>
    let info2 := popKey info extKey
    (mkFn info2 secSep valueSep ++ e, info2)
  | none => (mkFn info secSep valueSep, info)

/-- `info2fn(fn2info(f))` with the default separators (the round-trip of the
spec), as the produced filename. -/
def roundtrip (filename : Str) : Option Str :=
  (fn2info filename "_".toList "-".toList modalityDefault).map
    (fun m => (info2fn m "_".toList "-".toList).1)


/-! ### Lemmas about `findSubstr` -/

theorem findSubstr_eq_none {c : Char} {t s : Str} (h : c ∉ s) :
    findSubstr (c :: t) s = none := by
  induction s with
  | nil => simp [findSubstr, List.isPrefixOf_iff_prefix]
  | cons d rest ih =>
    have hcd : c ≠ d := fun e => h (e ▸ List.mem_cons_self c rest)
    have hrest : c ∉ rest := fun m => h (List.mem_cons_of_mem d m)
    have hpre : ¬ ((c :: t) <+: d :: rest) := by
      rw [List.cons_prefix_cons]
      rintro ⟨rfl, -⟩
      exact hcd rfl
    simp only [findSubstr]
    rw [if_neg (by simpa [List.isPrefixOf_iff_prefix] using hpre), ih hrest]
    rfl

theorem findSubstr_of_prefix {t s : Str} (h : t <+: s) :
    findSubstr t s = some 0 := by
  cases s with
  | nil => simp [findSubstr, List.isPrefixOf_iff_prefix, h]
  | cons d rest => simp [findSubstr, List.isPrefixOf_iff_prefix, h]

theorem findSubstr_append_right (t v : Str) :
    findSubstr t (t ++ v) = some 0 :=
  findSubstr_of_prefix (List.prefix_append t v)

theorem findSubstr_append_left {c : Char} {t : Str} (k s : Str) (hck : c ∉ k) :
    findSubstr (c :: t) (k ++ s) = (findSubstr (c :: t) s).map (· + k.length) := by
  induction k with
  | nil =>
    cases h : findSubstr (c :: t) s <;> simp [h]
  | cons d kt ih =>
    have hcd : c ≠ d := fun e => hck (e ▸ List.mem_cons_self c kt)
    have hk : c ∉ kt := fun m => hck (List.mem_cons_of_mem d m)
    have hpre : ¬ ((c :: t) <+: d :: (kt ++ s)) := by
      rw [List.cons_prefix_cons]
      rintro ⟨rfl, -⟩
      exact hcd rfl
    have hstep : (d :: kt) ++ s = d :: (kt ++ s) := rfl
    rw [hstep]
    simp only [findSubstr]
    rw [if_neg (by simpa [List.isPrefixOf_iff_prefix] using hpre), ih hk]
    cases h : findSubstr (c :: t) s with
    | none => rfl
    | some j => rfl

theorem findSubstr_at {c : Char} {t : Str} {k : Str} (v : Str) (hck : c ∉ k) :
    findSubstr (c :: t) (k ++ (c :: t) ++ v) = some k.length := by
  rw [List.append_assoc, findSubstr_append_left k ((c :: t) ++ v) hck,
    findSubstr_append_right]
  simp

theorem findSubstr_some_prefix {t s : Str} {i : Nat}
    (h : findSubstr t s = some i) : t <+: s.drop i := by
  induction s generalizing i with
  | nil =>
    simp [findSubstr, List.isPrefixOf_iff_prefix] at h
    obtain ⟨rfl, rfl⟩ := h
    simp
  | cons d rest ih =>
    simp only [findSubstr] at h
    split at h
    next hp =>
      obtain rfl : 0 = i := by simpa using h
      simpa [List.isPrefixOf_iff_prefix] using hp
    next hp =>
      cases hr : findSubstr t rest with
      | none => rw [hr] at h; simp at h
      | some j =>
        rw [hr] at h
        obtain rfl : j + 1 = i := by simpa using h
        rw [List.drop_succ_cons]
        exact ih hr

theorem findSubstr_some_le {t s : Str} {i : Nat}
    (h : findSubstr t s = some i) : i ≤ s.length := by
  induction s generalizing i with
  | nil =>
    simp [findSubstr, List.isPrefixOf_iff_prefix] at h
    obtain ⟨rfl, rfl⟩ := h
    simp
  | cons d rest ih =>
    simp only [findSubstr] at h
    split at h
    next hp =>
      obtain rfl : 0 = i := by simpa using h
      simp
    next hp =>
      cases hr : findSubstr t rest with
      | none => rw [hr] at h; simp at h
      | some j =>
        rw [hr] at h
        obtain rfl : j + 1 = i := by simpa using h
        have := ih hr
        simp only [List.length_cons]
        omega

theorem findSubstr_some_add_le {t s : Str} {i : Nat}
    (h : findSubstr t s = some i) : i + t.length ≤ s.length := by
  have hp := findSubstr_some_prefix h
  have h1 : t.length ≤ (s.drop i).length := hp.length_le
  have h2 := findSubstr_some_le h
  simp only [List.length_drop] at h1
  omega

theorem findSubstr_isSome_append (t a b : Str) :
    (findSubstr t (a ++ t ++ b)).isSome = true := by
  induction a with
  | nil =>
    rw [List.nil_append, findSubstr_append_right]
    rfl
  | cons d a2 ih =>
    have hstep : (d :: a2) ++ t ++ b = d :: (a2 ++ t ++ b) := by simp
    rw [hstep]
    have hunf : findSubstr t (d :: (a2 ++ t ++ b))
        = if t.isPrefixOf (d :: (a2 ++ t ++ b)) then some 0
          else (findSubstr t (a2 ++ t ++ b)).map (· + 1) := rfl
    rw [hunf]
    by_cases hp : t.isPrefixOf (d :: (a2 ++ t ++ b))
    · rw [if_pos hp]; rfl
    · rw [if_neg hp]
      cases hr : findSubstr t (a2 ++ t ++ b) with
      | none => rw [hr] at ih; exact Bool.noConfusion ih
      | some j => simp

theorem findSubstr_single_isSome_of_mem {c : Char} {s : Str} (h : c ∈ s) :
    (findSubstr [c] s).isSome = true := by
  obtain ⟨a, b, rfl⟩ := List.append_of_mem h
  rw [show a ++ c :: b = a ++ [c] ++ b by simp]
  exact findSubstr_isSome_append [c] a b

theorem findSubstr_single_eq_none {c : Char} {s : Str}
    (h : findSubstr [c] s = none) : c ∉ s := by
  intro hmem
  have hs := findSubstr_single_isSome_of_mem hmem
  rw [h] at hs
  exact Bool.noConfusion hs

theorem findSubstr_single_first {c : Char} {s : Str} {i : Nat}
    (h : findSubstr [c] s = some i) : c ∉ s.take i := by
  induction s generalizing i with
  | nil => simp
  | cons d rest ih =>
    simp only [findSubstr] at h
    split at h
    next hp =>
      obtain rfl : 0 = i := by simpa using h
      simp
    next hp =>
      have hcd : c ≠ d := by
        intro e
        subst e
        exact hp (by simp [List.isPrefixOf_iff_prefix, List.cons_prefix_cons])
      cases hr : findSubstr [c] rest with
      | none => rw [hr] at h; simp at h
      | some j =>
        rw [hr] at h
        obtain rfl : j + 1 = i := by simpa using h
        simp only [List.take_succ_cons, List.mem_cons]
        rintro (e | e)
        · exact hcd e
        · exact ih hr e

/-! ### Lemmas about `splitOnSub` -/

theorem splitOnSubAux_none {sep s : Str} (fuel : Nat)
    (h : findSubstr sep s = none) :
    splitOnSubAux sep (fuel + 1) s = [s] := by
  have hunf : splitOnSubAux sep (fuel + 1) s
      = match findSubstr sep s with
        | none => [s]
        | some i => s.take i :: splitOnSubAux sep fuel (s.drop (i + sep.length)) :=
    rfl
  rw [hunf, h]

theorem splitOnSubAux_step (sep s : Str) (fuel : Nat) (i : Nat)
    (h : findSubstr sep s = some i) :
    splitOnSubAux sep (fuel + 1) s
      = s.take i :: splitOnSubAux sep fuel (s.drop (i + sep.length)) := by
  have hunf : splitOnSubAux sep (fuel + 1) s
      = match findSubstr sep s with
        | none => [s]
        | some i => s.take i :: splitOnSubAux sep fuel (s.drop (i + sep.length)) :=
    rfl
  rw [hunf, h]

theorem splitOnSubAux_fuel {sep : Str} (hsep : sep ≠ []) :
    ∀ fuel1 fuel2 s, s.length < fuel1 → s.length < fuel2 →
      splitOnSubAux sep fuel1 s = splitOnSubAux sep fuel2 s := by
  intro fuel1
  induction fuel1 with
  | zero => intro fuel2 s h1 h2; omega
  | succ f1 ih =>
    intro fuel2 s h1 h2
    cases fuel2 with
    | zero => omega
    | succ f2 =>
      cases hr : findSubstr sep s with
      | none => rw [splitOnSubAux_none f1 hr, splitOnSubAux_none f2 hr]
      | some i =>
        rw [splitOnSubAux_step sep s f1 i hr, splitOnSubAux_step sep s f2 i hr]
        have hle := findSubstr_some_add_le hr
        have hsep1 : 1 ≤ sep.length := by
          cases sep with
          | nil => exact absurd rfl hsep
          | cons c t => simp
        congr 1
        apply ih
        · simp only [List.length_drop]; omega
        · simp only [List.length_drop]; omega

theorem splitOnSub_of_none {sep s : Str} (h : findSubstr sep s = none) :
    splitOnSub sep s = [s] := by
  simp only [splitOnSub]
  exact splitOnSubAux_none s.length h

theorem splitOnSub_cons {c : Char} {t k : Str} (rest : Str) (hck : c ∉ k) :
    splitOnSub (c :: t) (k ++ (c :: t) ++ rest) = k :: splitOnSub (c :: t) rest := by
  have hfind : findSubstr (c :: t) (k ++ (c :: t) ++ rest) = some k.length :=
    findSubstr_at rest hck
  have hlen : (k ++ (c :: t) ++ rest).length
      = k.length + (c :: t).length + rest.length := by simp; omega
  have hstep := splitOnSubAux_step (c :: t) (k ++ (c :: t) ++ rest)
    (k ++ (c :: t) ++ rest).length k.length hfind
  have htake : (k ++ (c :: t) ++ rest).take k.length = k := by
    rw [List.append_assoc]
    exact List.take_left k ((c :: t) ++ rest)
  have hdrop : (k ++ (c :: t) ++ rest).drop (k.length + (c :: t).length) = rest := by
    rw [List.append_assoc, show k.length + (c :: t).length
      = (k ++ (c :: t)).length by simp, ← List.append_assoc]
    exact List.drop_left (k ++ (c :: t)) rest
  simp only [splitOnSub]
  rw [hstep, htake, hdrop]
  congr 1
  apply splitOnSubAux_fuel (by simp)
  · rw [hlen]
    simp only [List.length_cons]
    omega
  · omega

theorem splitOnSub_ne_nil (sep s : Str) : splitOnSub sep s ≠ [] := by
  simp only [splitOnSub, splitOnSubAux]
  cases hr : findSubstr sep s with
  | none => simp
  | some i => simp

/-! ### Lemmas about `basename` -/

theorem takeWhile_eq_self_of_forall {p : Char → Bool} {l : Str}
    (h : ∀ c ∈ l, p c = true) : l.takeWhile p = l := by
  induction l with
  | nil => rfl
  | cons d rest ih =>
    rw [List.takeWhile_cons, if_pos (h d (List.mem_cons_self d rest))]
    rw [ih (fun c hc => h c (List.mem_cons_of_mem d hc))]

theorem basename_eq_self {s : Str} (h : '/' ∉ s) : basename s = s := by
  unfold basename
  rw [takeWhile_eq_self_of_forall, List.reverse_reverse]
  intro c hc
  have : c ∈ s := List.mem_reverse.mp hc
  simp only [decide_eq_true_eq]
  intro e
  subst e
  exact h this

theorem slash_not_mem_basename (s : Str) : '/' ∉ basename s := by
  unfold basename
  intro h
  have h2 := List.mem_reverse.mp h
  have h3 := List.mem_takeWhile_imp h2
  simp at h3

theorem basename_idem (s : Str) : basename (basename s) = basename s :=
  basename_eq_self (slash_not_mem_basename s)

/-! ### Lemmas about `customKey` -/

theorem natReprAux_mem {fuel n : Nat} {acc : Str} {c : Char}
    (h : c ∈ natReprAux fuel n acc) :
    (∃ m, m < 10 ∧ c = Char.ofNat (48 + m)) ∨ c ∈ acc := by
  induction fuel generalizing n acc with
  | zero => exact Or.inr h
  | succ f ih =>
    simp only [natReprAux] at h
    split at h
    next hn =>
      rcases List.mem_cons.mp h with e | hacc
      · exact Or.inl ⟨n % 10, Nat.mod_lt n (by omega), by simpa [digitChar] using e⟩
      · exact Or.inr hacc
    next hn =>
      rcases ih h with d | hacc
      · exact Or.inl d
      · rcases List.mem_cons.mp hacc with e | h2
        · exact Or.inl ⟨n % 10, Nat.mod_lt n (by omega), by simpa [digitChar] using e⟩
        · exact Or.inr h2

theorem customKey_mem {n : Nat} {c : Char} (h : c ∈ customKey n) :
    c ∈ "custom".toList ∨ ∃ m, m < 10 ∧ c = Char.ofNat (48 + m) := by
  rcases List.mem_append.mp h with h1 | h2
  · exact Or.inl h1
  · rcases natReprAux_mem h2 with d | habs
    · exact Or.inr d
    · simp at habs

theorem dash_not_mem_customKey (n : Nat) : '-' ∉ customKey n := by
  intro h
  rcases customKey_mem h with h1 | ⟨m, hm, he⟩
  · simp at h1
  · revert he
    interval_cases m <;> decide

theorem customKey_ne_modalityKey (n : Nat) : customKey n ≠ modalityKey := by
  intro h
  have : ('c' :: "ustom".toList ++ natRepr n) = modalityKey := h
  simp [modalityKey] at this

theorem customKey_ne_extKey (n : Nat) : customKey n ≠ extKey := by
  intro h
  have : ('c' :: "ustom".toList ++ natRepr n) = extKey := h
  simp [extKey] at this

/-! ### Lemmas about `mkSections` and `collectEntries` -/

theorem mkSections_length (sec : List Str) (vs : Str) (mo : List Str) :
    (mkSections sec vs mo).length = sec.length := by
  simp only [mkSections, List.length_map, List.length_zip, List.length_set,
    List.length_range]
  split <;> simp

theorem backup_getElem (sec : List Str) (vs : Str) (mo : List Str)
    {i : Nat} (h : i < sec.length) :
    (if lastIsModality sec vs mo
     then ((List.range sec.length).map (fun x => customKey (x + 1))).set
          (((List.range sec.length).map (fun x => customKey (x + 1))).length - 1)
          modalityKey
     else (List.range sec.length).map (fun x => customKey (x + 1)))[i]?
    = some (if lastIsModality sec vs mo ∧ i = sec.length - 1
        then modalityKey else customKey (i + 1)) := by
  have hb0 : ((List.range sec.length).map (fun x => customKey (x + 1)))[i]?
      = some (customKey (i + 1)) := by
    rw [List.getElem?_map, List.getElem?_range h]
    rfl
  have hlen : ((List.range sec.length).map (fun x => customKey (x + 1))).length
      = sec.length := by simp
  by_cases hc : lastIsModality sec vs mo
  · rw [if_pos hc, List.getElem?_set, hlen]
    by_cases he : i = sec.length - 1
    · rw [if_pos he.symm, if_pos (by omega), if_pos ⟨hc, he⟩]
    · rw [if_neg (fun e => he e.symm), hb0, if_neg (fun hx => he hx.2)]
  · rw [if_neg hc, hb0, if_neg (fun hx => hc hx.1)]

theorem mkSections_getElem (sec : List Str) (vs : Str) (mo : List Str)
    {i : Nat} (h : i < sec.length) :
    (mkSections sec vs mo)[i]?
      = some (if (findSubstr vs sec[i]).isNone
          then (if lastIsModality sec vs mo ∧ i = sec.length - 1
                then modalityKey else customKey (i + 1)) ++ vs ++ sec[i]
          else sec[i]) := by
  have hml := mkSections_length sec vs mo
  have hbl : (if lastIsModality sec vs mo
      then ((List.range sec.length).map (fun x => customKey (x + 1))).set
          (((List.range sec.length).map (fun x => customKey (x + 1))).length - 1)
          modalityKey
      else (List.range sec.length).map (fun x => customKey (x + 1))).length
      = sec.length := by
    split <;> simp
  have hB := backup_getElem sec vs mo h
  rw [List.getElem?_eq_getElem (by omega)]
  congr 1
  simp only [mkSections, List.getElem_map, List.getElem_zip]
  have hbi : i < (if lastIsModality sec vs mo
      then ((List.range sec.length).map (fun x => customKey (x + 1))).set
          (((List.range sec.length).map (fun x => customKey (x + 1))).length - 1)
          modalityKey
      else (List.range sec.length).map (fun x => customKey (x + 1))).length := by
    omega
  rw [List.getElem?_eq_getElem hbi] at hB
  rw [Option.some.inj hB]

theorem mkSections_isSome (sec : List Str) (vs : Str) (mo : List Str) :
    ∀ x ∈ mkSections sec vs mo, (findSubstr vs x).isSome = true := by
  intro x hx
  obtain ⟨i, hi, hxe⟩ := List.mem_iff_getElem.mp hx
  have hi2 : i < sec.length := by
    rwa [mkSections_length] at hi
  have hme := mkSections_getElem sec vs mo hi2
  rw [List.getElem?_eq_getElem hi, hxe] at hme
  have hx2 := Option.some.inj hme
  by_cases hf : (findSubstr vs sec[i]).isNone
  · rw [if_pos hf] at hx2
    rw [hx2]
    exact findSubstr_isSome_append vs _ sec[i]
  · rw [if_neg hf] at hx2
    rw [hx2]
    cases hfs : findSubstr vs sec[i] with
    | none => exact absurd (by rw [hfs]; rfl) hf
    | some j => rfl

theorem collectEntries_isSome {vs : Str} {l : List Str}
    (h : ∀ s ∈ l, (findSubstr vs s).isSome = true) :
    (collectEntries vs l).isSome = true := by
  induction l with
  | nil => rfl
  | cons s rest ih =>
    have hs := h s (List.mem_cons_self s rest)
    have hrest := ih (fun x hx => h x (List.mem_cons_of_mem s hx))
    simp only [collectEntries]
    cases hse : splitEntry vs s with
    | none =>
      simp only [splitEntry] at hse
      cases hf : findSubstr vs s with
      | none => rw [hf] at hs; exact Bool.noConfusion hs
      | some j => rw [hf] at hse; simp at hse
    | some kv =>
      cases hce : collectEntries vs rest with
      | none => rw [hce] at hrest; exact Bool.noConfusion hrest
      | some es => simp

theorem collectEntries_getElem {vs : Str} {l : List Str} {es : List (Str × Str)}
    (h : collectEntries vs l = some es) :
    es.length = l.length ∧
      ∀ i, i < l.length → ∀ hi : i < l.length, splitEntry vs l[i] = es[i]? := by
  induction l generalizing es with
  | nil =>
    simp only [collectEntries, Option.some.injEq] at h
    subst h
    exact ⟨rfl, fun i hi => absurd hi (by simp)⟩
  | cons s rest ih =>
    simp only [collectEntries] at h
    cases hse : splitEntry vs s with
    | none => rw [hse] at h; simp at h
    | some kv =>
      rw [hse] at h
      cases hce : collectEntries vs rest with
      | none => rw [hce] at h; simp at h
      | some es2 =>
        rw [hce] at h
        obtain rfl : kv :: es2 = es := by simpa using h
        obtain ⟨hlen, hget⟩ := ih hce
        refine ⟨by simp [hlen], ?_⟩
        intro i hi hi2
        cases i with
        | zero => simpa using hse
        | succ j =>
          have hj : j < rest.length := by simpa using hi
          simpa using hget j hj hj

/-! ### Lemmas about `stemExt` -/

theorem stemExt_no_dot {f : Str} (h : '.' ∉ basename f) :
    stemExt f = (basename f, []) := by
  have hf : findSubstr ['.'] (basename f) = none := by
    cases hr : findSubstr ['.'] (basename f) with
    | none => rfl
    | some i =>
      have hp := findSubstr_some_prefix hr
      have : '.' ∈ (basename f).drop i := hp.subset (List.mem_cons_self '.' [])
      exact absurd (List.mem_of_mem_drop this) h
  simp [stemExt, hf]

theorem stemExt_dot {f : Str} {pre post : Str}
    (hb : basename f = pre ++ '.' :: post) (hpre : '.' ∉ pre) :
    stemExt f = (pre, '.' :: post) := by
  have hf : findSubstr ['.'] (basename f) = some pre.length := by
    rw [hb, show pre ++ '.' :: post = pre ++ ['.'] ++ post by simp]
    exact findSubstr_at post hpre
  simp only [stemExt, hf, Option.getD_some]
  rw [hb, List.take_left, List.drop_left]

theorem stemExt_cases (f : Str) :
    ('.' ∉ basename f ∧ stemExt f = (basename f, [])) ∨
    ∃ pre post, basename f = pre ++ '.' :: post ∧ '.' ∉ pre ∧
      stemExt f = (pre, '.' :: post) := by
  cases hr : findSubstr ['.'] (basename f) with
  | none =>
    have hnm := findSubstr_single_eq_none hr
    exact Or.inl ⟨hnm, stemExt_no_dot hnm⟩
  | some i =>
    have hp := findSubstr_some_prefix hr
    have hfirst := findSubstr_single_first hr
    obtain ⟨rest, hrest⟩ := hp
    have hsplit : basename f = (basename f).take i ++ '.' :: rest := by
      conv_lhs => rw [← List.take_append_drop i (basename f)]
      rw [← hrest]
      simp
    refine Or.inr ⟨(basename f).take i, rest, hsplit, hfirst,
      stemExt_dot hsplit hfirst⟩

/-! ### Lemmas about the dictionary model -/

theorem lookupA_insertA (m : InfoMap) (k v k2 : Str) :
    lookupA (insertA m k v) k2 = if k = k2 then some v else lookupA m k2 := by
  induction m with
  | nil =>
    by_cases h : k = k2 <;> simp [insertA, lookupA, h]
  | cons p t ih =>
    obtain ⟨a, b⟩ := p
    by_cases hak : a = k
    · subst hak
      by_cases h2 : a = k2
      · subst h2
        simp [insertA, lookupA]
      · simp [insertA, lookupA, h2]
    · by_cases h2 : a = k2
      · subst h2
        have hka : k ≠ a := fun e => hak e.symm
        simp [insertA, lookupA, hak, hka]
      · simp [insertA, lookupA, hak, h2, ih]

theorem mem_keys_insertA (m : InfoMap) (k v k2 : Str) :
    k2 ∈ (insertA m k v).map Prod.fst ↔ k2 ∈ m.map Prod.fst ∨ k2 = k := by
  induction m with
  | nil => simp [insertA]
  | cons p t ih =>
    obtain ⟨a, b⟩ := p
    by_cases hak : a = k
    · subst hak
      have he : insertA ((a, b) :: t) a v = (a, v) :: t := by simp [insertA]
      rw [he]
      simp only [List.map_cons, List.mem_cons]
      tauto
    · simp only [insertA, if_neg hak, List.map_cons, List.mem_cons, ih]
      tauto

theorem nodup_keys_insertA {m : InfoMap} (k v : Str)
    (h : (m.map Prod.fst).Nodup) : ((insertA m k v).map Prod.fst).Nodup := by
  induction m with
  | nil => simp [insertA]
  | cons p t ih =>
    obtain ⟨a, b⟩ := p
    simp only [List.map_cons, List.nodup_cons] at h
    obtain ⟨ha, ht⟩ := h
    by_cases hak : a = k
    · subst hak
      have he : insertA ((a, b) :: t) a v = (a, v) :: t := by simp [insertA]
      rw [he]
      simp only [List.map_cons, List.nodup_cons]
      exact ⟨ha, ht⟩
    · simp only [insertA, if_neg hak, List.map_cons, List.nodup_cons]
      refine ⟨?_, ih ht⟩
      rw [mem_keys_insertA]
      rintro (hm | rfl)
      · exact ha hm
      · exact hak rfl

theorem nodup_keys_foldl_insertA (es : List (Str × Str)) :
    ∀ m : InfoMap, (m.map Prod.fst).Nodup →
      ((es.foldl (fun m kv => insertA m kv.1 kv.2) m).map Prod.fst).Nodup := by
  induction es with
  | nil => intro m hm; exact hm
  | cons kv es2 ih =>
    intro m hm
    exact ih (insertA m kv.1 kv.2) (nodup_keys_insertA kv.1 kv.2 hm)

theorem nodup_keys_buildDict (es : List (Str × Str)) :
    ((buildDict es).map Prod.fst).Nodup :=
  nodup_keys_foldl_insertA es [] (by simp)

theorem countP_keys_eq_one {m : InfoMap} {k : Str}
    (hnd : (m.map Prod.fst).Nodup) (hmem : k ∈ m.map Prod.fst) :
    m.countP (fun kv => decide (kv.1 = k)) = 1 := by
  induction m with
  | nil => simp at hmem
  | cons p t ih =>
    obtain ⟨a, b⟩ := p
    simp only [List.map_cons, List.nodup_cons] at hnd
    obtain ⟨ha, ht⟩ := hnd
    simp only [List.map_cons, List.mem_cons] at hmem
    rcases hmem with rfl | hmem
    · have hz : t.countP (fun kv => decide (kv.1 = k)) = 0 := by
        rw [List.countP_eq_zero]
        intro kv hkv
        simp only [decide_eq_true_eq]
        intro e
        exact ha (e ▸ List.mem_map_of_mem Prod.fst hkv)
      rw [List.countP_cons, hz, if_pos (by simp)]
    · have hak : a ≠ k := by
        intro e
        subst e
        exact ha hmem
      rw [List.countP_cons, ih ht hmem, if_neg (by simp [hak])]

theorem lookupA_eq_of_mem_nodup {m : InfoMap} {kv : Str × Str}
    (hnd : (m.map Prod.fst).Nodup) (hmem : kv ∈ m) :
    lookupA m kv.1 = some kv.2 := by
  induction m with
  | nil => simp at hmem
  | cons p t ih =>
    obtain ⟨a, b⟩ := p
    simp only [List.map_cons, List.nodup_cons] at hnd
    obtain ⟨ha, ht⟩ := hnd
    rcases List.mem_cons.mp hmem with rfl | hmem2
    · simp [lookupA]
    · have hak : a ≠ kv.1 := by
        intro e
        exact ha (e ▸ List.mem_map_of_mem Prod.fst hmem2)
      simp only [lookupA, if_neg hak]
      exact ih ht hmem2

theorem insertA_append_of_not_mem {m : InfoMap} {k : Str} (v : Str)
    (h : k ∉ m.map Prod.fst) : insertA m k v = m ++ [(k, v)] := by
  induction m with
  | nil => simp [insertA]
  | cons p t ih =>
    obtain ⟨a, b⟩ := p
    simp only [List.map_cons, List.mem_cons] at h
    push_neg at h
    obtain ⟨hak, ht⟩ := h
    have hak2 : a ≠ k := fun e => hak e.symm
    simp only [insertA, if_neg hak2]
    rw [ih ht]
    rfl

theorem foldl_insertA_of_disjoint (es : List (Str × Str)) :
    ∀ m : InfoMap, (∀ kv ∈ es, kv.1 ∉ m.map Prod.fst) →
      (es.map Prod.fst).Nodup →
      es.foldl (fun m kv => insertA m kv.1 kv.2) m = m ++ es := by
  induction es with
  | nil => intro m _ _; simp
  | cons kv es2 ih =>
    intro m hdis hnd
    simp only [List.map_cons, List.nodup_cons] at hnd
    obtain ⟨hk, hnd2⟩ := hnd
    have h1 : kv.1 ∉ m.map Prod.fst := hdis kv (List.mem_cons_self kv es2)
    simp only [List.foldl_cons]
    rw [insertA_append_of_not_mem kv.2 h1]
    rw [ih (m ++ [(kv.1, kv.2)]) ?hdis hnd2]
    · simp
    case hdis =>
      intro kv2 hkv2
      simp only [List.map_append, List.mem_append]
      rintro (hm | hone)
      · exact hdis kv2 (List.mem_cons_of_mem kv hkv2) hm
      · simp only [List.map_cons, List.map_nil, List.mem_cons,
          List.not_mem_nil] at hone
        rcases hone with e | e
        · exact hk (e ▸ List.mem_map_of_mem Prod.fst hkv2)
        · exact e.elim
  
theorem buildDict_eq_self {es : List (Str × Str)}
    (hnd : (es.map Prod.fst).Nodup) : buildDict es = es := by
  have := foldl_insertA_of_disjoint es [] (by simp) hnd
  simpa [buildDict] using this

theorem filter_ne_eq_self {m : InfoMap} {k : Str}
    (h : k ∉ m.map Prod.fst) :
    m.filter (fun kv => decide (kv.1 ≠ k)) = m := by
  rw [List.filter_eq_self]
  intro kv hkv
  simp only [decide_eq_true_eq]
  intro e
  exact h (e ▸ List.mem_map_of_mem Prod.fst hkv)

theorem popKey_eq_filter {m : InfoMap} {k : Str}
    (hnd : (m.map Prod.fst).Nodup) :
    popKey m k = m.filter (fun kv => decide (kv.1 ≠ k)) := by
  induction m with
  | nil => simp [popKey]
  | cons p t ih =>
    obtain ⟨a, b⟩ := p
    simp only [List.map_cons, List.nodup_cons] at hnd
    obtain ⟨ha, ht⟩ := hnd
    by_cases hak : a = k
    · subst hak
      rw [popKey, if_pos rfl, List.filter_cons_of_neg (by simp)]
      exact (filter_ne_eq_self ha).symm
    · rw [popKey, if_neg hak, List.filter_cons_of_pos (by simp [hak])]
      rw [ih ht]

/-! ### Pipeline lemmas -/

theorem fn2infoSections_isSome (f secSep vs : Str) (mo : List Str)
    (h : secSep ≠ []) : (fn2infoSections f secSep vs mo).isSome = true := by
  simp only [fn2infoSections, if_neg h]
  exact collectEntries_isSome
    (mkSections_isSome (sectionsOf f secSep) vs mo)

theorem fn2info_isSome (f secSep vs : Str) (mo : List Str)
    (h : secSep ≠ []) : (fn2info f secSep vs mo).isSome = true := by
  simp only [fn2info]
  cases hr : fn2infoSections f secSep vs mo with
  | none =>
    have hs := fn2infoSections_isSome f secSep vs mo h
    rw [hr] at hs
    exact Bool.noConfusion hs
  | some es => rfl

theorem splitEntry_at {c : Char} {t k : Str} (v : Str) (hck : c ∉ k) :
    splitEntry (c :: t) (k ++ (c :: t) ++ v) = some (k, t ++ v) := by
  have hf : findSubstr (c :: t) (k ++ (c :: t) ++ v) = some k.length :=
    findSubstr_at v hck
  have htake : (k ++ (c :: t) ++ v).take k.length = k := by
    rw [List.append_assoc]
    exact List.take_left k ((c :: t) ++ v)
  have hdrop : (k ++ (c :: t) ++ v).drop (k.length + 1) = t ++ v := by
    rw [List.append_assoc, List.cons_append, List.drop_append]
    rfl
  simp only [splitEntry, hf]
  rw [show Option.map
      (fun i => ((k ++ (c :: t) ++ v).take i, (k ++ (c :: t) ++ v).drop (i + 1)))
      (some k.length)
    = some ((k ++ (c :: t) ++ v).take k.length,
        (k ++ (c :: t) ++ v).drop (k.length + 1)) from rfl]
  rw [htake, hdrop]

theorem splitEntry_single {c : Char} {k : Str} (v : Str) (hck : c ∉ k) :
    splitEntry [c] (k ++ c :: v) = some (k, v) := by
  have h := @splitEntry_at c ([] : Str) k v hck
  rw [show k ++ [c] ++ v = k ++ c :: v from by simp] at h
  simpa using h

theorem getLastD_eq_getElem {α : Type} {l : List α} {d : α} {i : Nat}
    (h : i = l.length - 1) (hi : i < l.length) : l.getLastD d = l[i] := by
  subst h
  rw [List.getLastD_eq_getLast?, List.getLast?_eq_getElem?,
    List.getElem?_eq_getElem hi]
  rfl

theorem map_getLastD {α β : Type} (f : α → β) {l : List α} (hne : l ≠ [])
    (d : α) (d2 : β) : (l.map f).getLastD d2 = f (l.getLastD d) := by
  have h1 : 0 < l.length := List.length_pos.mpr hne
  have hi : l.length - 1 < l.length := by omega
  have him : l.length - 1 < (l.map f).length := by
    rw [List.length_map]; omega
  rw [getLastD_eq_getElem (by rw [List.length_map]) him,
      getLastD_eq_getElem rfl hi, List.getElem_map]

theorem lastIsModality_iff {sec : List Str} {vs : Str} {mo : List Str}
    (hne : sec ≠ []) :
    lastIsModality sec vs mo
      = ((findSubstr vs (sec.getLastD [])).isNone
          == decide (sec.getLastD [] ∈ mo)) := by
  unfold lastIsModality
  rw [map_getLastD (fun e => (findSubstr vs e).isNone) hne []]

theorem fn2infoSections_getElem {f secSep vs : Str} {mo : List Str}
    {es : List (Str × Str)}
    (hes : fn2infoSections f secSep vs mo = some es) :
    es.length = (sectionsOf f secSep).length ∧
    ∀ i : Nat, ∀ hi : i < (sectionsOf f secSep).length,
      es[i]? = splitEntry vs
        (if (findSubstr vs (sectionsOf f secSep)[i]).isNone
         then (if lastIsModality (sectionsOf f secSep) vs mo
                  ∧ i = (sectionsOf f secSep).length - 1
               then modalityKey else customKey (i + 1)) ++ vs
              ++ (sectionsOf f secSep)[i]
         else (sectionsOf f secSep)[i]) := by
  have hss : secSep ≠ [] := by
    intro e
    rw [fn2infoSections, if_pos e] at hes
    exact Option.noConfusion hes
  have hcc : collectEntries vs (mkSections (sectionsOf f secSep) vs mo)
      = some es := by
    rw [fn2infoSections, if_neg hss] at hes
    exact hes
  obtain ⟨hlen, hget⟩ := collectEntries_getElem hcc
  have hml := mkSections_length (sectionsOf f secSep) vs mo
  refine ⟨by rw [hlen, hml], ?_⟩
  intro i hi
  have hmi : i < (mkSections (sectionsOf f secSep) vs mo).length := by omega
  have hme := mkSections_getElem (sectionsOf f secSep) vs mo hi
  rw [List.getElem?_eq_getElem hmi] at hme
  have hval := Option.some.inj hme
  rw [← hget i hmi hmi, hval]

theorem fn2infoSections_entry (f secSep vs : Str) (mo : List Str)
    (hss : secSep ≠ []) {i : Nat} (hi : i < (sectionsOf f secSep).length) :
    ∃ es, fn2infoSections f secSep vs mo = some es ∧
      es.length = (sectionsOf f secSep).length ∧
      es[i]? = splitEntry vs
        (if (findSubstr vs (sectionsOf f secSep)[i]).isNone
         then (if lastIsModality (sectionsOf f secSep) vs mo
                  ∧ i = (sectionsOf f secSep).length - 1
               then modalityKey else customKey (i + 1)) ++ vs
              ++ (sectionsOf f secSep)[i]
         else (sectionsOf f secSep)[i]) := by
  have hs := fn2infoSections_isSome f secSep vs mo hss
  cases hr : fn2infoSections f secSep vs mo with
  | none => rw [hr] at hs; exact Bool.noConfusion hs
  | some es =>
    obtain ⟨hlen, hget⟩ := fn2infoSections_getElem hr
    exact ⟨es, rfl, hlen, hget i hi⟩

theorem lookupA_buildDict_append (l : List (Str × Str)) (e : Str × Str) :
    lookupA (buildDict (l ++ [e])) e.1 = some e.2 := by
  unfold buildDict
  rw [List.foldl_append]
  show lookupA
    (insertA (List.foldl (fun m kv => insertA m kv.1 kv.2) [] l) e.1 e.2) e.1
    = some e.2
  rw [lookupA_insertA, if_pos rfl]

theorem popKey_append {m : InfoMap} {k : Str} (v : Str)
    (h : k ∉ m.map Prod.fst) : popKey (m ++ [(k, v)]) k = m := by
  induction m with
  | nil => simp [popKey]
  | cons p t ih =>
    obtain ⟨a, b⟩ := p
    simp only [List.map_cons, List.mem_cons] at h
    push_neg at h
    obtain ⟨hak, ht⟩ := h
    have hak2 : a ≠ k := fun e => hak e.symm
    simp only [List.cons_append, popKey, if_neg hak2]
    show (a, b) :: popKey (t ++ [(k, v)]) k = (a, b) :: t
    rw [ih ht]

theorem fn2info_eq {f secSep vs : Str} {mo : List Str} {es : List (Str × Str)}
    (hes : fn2infoSections f secSep vs mo = some es) :
    fn2info f secSep vs mo
      = some (insertA (buildDict es) extKey (stemExt f).2) := by
  rw [fn2info, hes]
  rfl

/-! ### Claim theorems -/

/-- Claim C8: with the default separators `'_'` and `'-'`, `fn2info` is total
and never raises for any string input: the embedded function (where `none`
models a raised Python exception) returns `some` mapping on every input. -/
theorem claim8_fn2info_total (f : Str) :
    (fn2info f "_".toList "-".toList modalityDefault).isSome = true :=
  fn2info_isSome f "_".toList "-".toList modalityDefault (by decide)

/-- Claim C5: for every filename, the extension is everything from the first
`'.'` of the base name to the end (with multiple dots the whole tail), the
stem decoded into sections is everything before that first `'.'`, and the
returned mapping's `ext` entry holds exactly that extension; in particular
`fn2info` maps `'ext'` to `.dtseries.nii` on the third doc example. -/
theorem claim5_extension_first_dot :
    (∀ f : Str,
      (fn2info f "_".toList "-".toList modalityDefault).bind
          (fun m => lookupA m extKey) = some (stemExt f).2) ∧
    (∀ f : Str,
      ('.' ∉ basename f ∧ stemExt f = (basename f, [])) ∨
      ∃ pre post, basename f = pre ++ '.' :: post ∧ '.' ∉ pre ∧
        stemExt f = (pre, '.' :: post)) ∧
    ((fn2info "sub-1_task-S_run-4_space-fsLR_den-91k_bold.dtseries.nii".toList
        "_".toList "-".toList modalityDefault).bind
        (fun m => lookupA m extKey)
      = some ".dtseries.nii".toList) := by
  refine ⟨?_, stemExt_cases, by decide⟩
  intro f
  obtain ⟨es, hes⟩ := Option.isSome_iff_exists.mp
    (fn2infoSections_isSome f "_".toList "-".toList modalityDefault (by decide))
  rw [fn2info_eq hes]
  show lookupA (insertA (buildDict es) extKey (stemExt f).2) extKey
      = some (stemExt f).2
  rw [lookupA_insertA, if_pos rfl]

/-- Claim C6: with the default separators, a section containing the value
separator is split only at its first occurrence (the value may embed further
`'-'` characters); in particular the `space` and `hemi` fields of the second
doc example decode to `fsnative` and `L`. -/
theorem claim6_split_first_sep :
    (∀ k v : Str, '-' ∉ k →
      splitEntry "-".toList (k ++ '-' :: v) = some (k, v)) ∧
    ((fn2info "sub-S02_task-TN_run-4_space-fsnative_hemi-L_bold.func.gii".toList
        "_".toList "-".toList modalityDefault).bind
        (fun m => lookupA m "space".toList) = some "fsnative".toList) ∧
    ((fn2info "sub-S02_task-TN_run-4_space-fsnative_hemi-L_bold.func.gii".toList
        "_".toList "-".toList modalityDefault).bind
        (fun m => lookupA m "hemi".toList) = some "L".toList) := by
  refine ⟨?_, by decide, by decide⟩
  intro k v hk
  exact splitEntry_single v hk

/-- Witness for C6: the general first-occurrence split applied to the section
`key-a-b`, whose value itself contains the value separator. -/
theorem claim6_witness :
    ('-' ∉ "key".toList) ∧
    splitEntry "-".toList ("key".toList ++ '-' :: "a-b".toList)
      = some ("key".toList, "a-b".toList) :=
  ⟨by decide, claim6_split_first_sep.1 "key".toList "a-b".toList (by decide)⟩

/-- Claim C7: for every input, the mapping returned by `fn2info` has exactly
one `ext` entry, whose value is empty or begins with `'.'`; in particular
`fn2info` maps `'ext'` to the empty string on `sub-01_T1w` and the round trip
returns `sub-01_T1w` unchanged. -/
theorem claim7_ext_invariant :
    (∀ f : Str, ∃ m, fn2info f "_".toList "-".toList modalityDefault = some m ∧
      m.countP (fun kv => decide (kv.1 = extKey)) = 1 ∧
      ∀ kv ∈ m, kv.1 = extKey → kv.2 = [] ∨ kv.2.head? = some '.') ∧
    ((fn2info "sub-01_T1w".toList "_".toList "-".toList modalityDefault).bind
        (fun m => lookupA m extKey) = some []) ∧
    roundtrip "sub-01_T1w".toList = some "sub-01_T1w".toList := by
  refine ⟨?_, by decide, by decide⟩
  intro f
  obtain ⟨es, hes⟩ := Option.isSome_iff_exists.mp
    (fn2infoSections_isSome f "_".toList "-".toList modalityDefault (by decide))
  have hnd := nodup_keys_insertA extKey (stemExt f).2 (nodup_keys_buildDict es)
  refine ⟨insertA (buildDict es) extKey (stemExt f).2, fn2info_eq hes, ?_, ?_⟩
  · have hmem : extKey
        ∈ (insertA (buildDict es) extKey (stemExt f).2).map Prod.fst :=
      (mem_keys_insertA (buildDict es) extKey (stemExt f).2 extKey).mpr
        (Or.inr rfl)
    exact countP_keys_eq_one hnd hmem
  · intro kv hkv hk1
    have h1 := lookupA_eq_of_mem_nodup hnd hkv
    rw [hk1, lookupA_insertA, if_pos rfl] at h1
    have hv : kv.2 = (stemExt f).2 := (Option.some.inj h1).symm
    rw [hv]
    rcases stemExt_cases f with ⟨hnd2, hse⟩ | ⟨pre, post, hb, hp, hse⟩
    · rw [hse]
      exact Or.inl rfl
    · rw [hse]
      exact Or.inr rfl

/-- Witness for C7: the invariant instantiated at the input `a.b`. -/
theorem claim7_witness :
    ∃ m, fn2info "a.b".toList "_".toList "-".toList modalityDefault = some m ∧
      m.countP (fun kv => decide (kv.1 = extKey)) = 1 ∧
      ∀ kv ∈ m, kv.1 = extKey → kv.2 = [] ∨ kv.2.head? = some '.' :=
  claim7_ext_invariant.1 "a.b".toList

/-- Claim C10: `fn2info` on the empty string returns the mapping
`{custom1: '', ext: ''}` without raising, and in general every empty section
(from consecutive section separators) is treated as a bare section and is
assigned the synthesized key `custom<i+1>` (`i` its 0-based position) with the
empty string as value. -/
theorem claim10_empty_sections :
    (fn2info [] "_".toList "-".toList modalityDefault
        = some [("custom1".toList, []), (extKey, [])]) ∧
    ∀ f : Str, ∀ i : Nat, ∀ hi : i < (sectionsOf f "_".toList).length,
      (sectionsOf f "_".toList)[i] = [] →
        ∃ es, fn2infoSections f "_".toList "-".toList modalityDefault
            = some es ∧
          es[i]? = some (customKey (i + 1), []) := by
  refine ⟨by decide, ?_⟩
  intro f i hi hempty
  obtain ⟨es, hes, hlen, hget⟩ :=
    fn2infoSections_entry f "_".toList "-".toList modalityDefault
      (by decide) hi
  refine ⟨es, hes, ?_⟩
  rw [hget, hempty]
  have hnotmod : ¬ (lastIsModality (sectionsOf f "_".toList) "-".toList
      modalityDefault = true ∧ i = (sectionsOf f "_".toList).length - 1) := by
    rintro ⟨hmod, he⟩
    have hne : sectionsOf f "_".toList ≠ [] := by
      intro e
      rw [e] at hi
      simp at hi
    have hlast : (sectionsOf f "_".toList).getLastD []
        = (sectionsOf f "_".toList)[i] := getLastD_eq_getElem he hi
    rw [lastIsModality_iff hne, hlast, hempty] at hmod
    revert hmod
    decide
  rw [if_pos (by decide), if_neg hnotmod]
  exact @splitEntry_at '-' [] (customKey (i + 1)) []
    (dash_not_mem_customKey (i + 1))

/-- Witness for C10 (general part): in `a-b__c-d`, the empty section between
the doubled separators is section 1 and decodes to `custom2` with empty
value. -/
theorem claim10_witness :
    (sectionsOf "a-b__c-d".toList "_".toList).length = 3 ∧
    ∃ es, fn2infoSections "a-b__c-d".toList "_".toList "-".toList
        modalityDefault = some es ∧
      es[1]? = some (customKey 2, []) :=
  ⟨by decide,
   claim10_empty_sections.2 "a-b__c-d".toList 1 (by decide) (by decide)⟩

/-- Claim C2 (counterexample): the spec says the bare section `TaskName` of
`sub-002_TaskName_ses-001_Run-01_bold.nii.gz` receives the key `custom1`
(numbering over bare sections only); the code instead numbers the backup keys
by the position among ALL sections, so the key is `custom2` and no `custom1`
key exists. -/
theorem claim2_counterexample :
    (fn2info "sub-002_TaskName_ses-001_Run-01_bold.nii.gz".toList
        "_".toList "-".toList modalityDefault).bind
        (fun m => lookupA m "custom1".toList) = none ∧
    (fn2info "sub-002_TaskName_ses-001_Run-01_bold.nii.gz".toList
        "_".toList "-".toList modalityDefault).bind
        (fun m => lookupA m "custom2".toList) = some "TaskName".toList := by
  decide

/-- Claim C2 (amended): with the default separators, a bare section (one with
no value separator) that is not classified as modality receives the
synthesized key `custom<N>` where `N` is its 1-based position among ALL
sections of the stem (not only the bare ones); in particular section `i`
(0-based) receives `custom<i+1>`. -/
theorem claim2_custom_numbering_amended (f : Str) (i : Nat)
    (hi : i < (sectionsOf f "_".toList).length)
    (hbare : (findSubstr "-".toList (sectionsOf f "_".toList)[i]).isNone
      = true)
    (hnotmod : i + 1 < (sectionsOf f "_".toList).length
      ∨ (sectionsOf f "_".toList).getLastD [] ∉ modalityDefault) :
    ∃ es, fn2infoSections f "_".toList "-".toList modalityDefault = some es ∧
      es[i]? = some (customKey (i + 1), (sectionsOf f "_".toList)[i]) := by
  obtain ⟨es, hes, hlen, hget⟩ :=
    fn2infoSections_entry f "_".toList "-".toList modalityDefault
      (by decide) hi
  refine ⟨es, hes, ?_⟩
  have hnotmod2 : ¬ (lastIsModality (sectionsOf f "_".toList) "-".toList
      modalityDefault = true ∧ i = (sectionsOf f "_".toList).length - 1) := by
    rintro ⟨hmod, he⟩
    rcases hnotmod with hlt | hnm
    · omega
    · have hne : sectionsOf f "_".toList ≠ [] := by
        intro e
        rw [e] at hi
        simp at hi
      have hlast : (sectionsOf f "_".toList).getLastD []
          = (sectionsOf f "_".toList)[i] := getLastD_eq_getElem he hi
      rw [lastIsModality_iff hne, hlast, hbare] at hmod
      have hmem : (sectionsOf f "_".toList)[i] ∈ modalityDefault := by
        simpa using hmod
      refine hnm ?_
      rw [hlast]
      exact hmem
  rw [hget, if_pos hbare, if_neg hnotmod2]
  exact @splitEntry_at '-' [] (customKey (i + 1)) ((sectionsOf f "_".toList)[i])
    (dash_not_mem_customKey (i + 1))

/-- Witness for the amended C2: in the spec's own example, section 1
(`TaskName`) is bare and gets key `custom2`. -/
theorem claim2_amended_witness :
    1 + 1 < (sectionsOf "sub-002_TaskName_ses-001_Run-01_bold.nii.gz".toList
      "_".toList).length ∧
    ∃ es, fn2infoSections "sub-002_TaskName_ses-001_Run-01_bold.nii.gz".toList
        "_".toList "-".toList modalityDefault = some es ∧
      es[1]? = some (customKey 2, "TaskName".toList) :=
  ⟨by decide,
   claim2_custom_numbering_amended
     "sub-002_TaskName_ses-001_Run-01_bold.nii.gz".toList 1 (by decide)
     (by decide) (Or.inl (by decide))⟩

theorem lookupA_buildDict_last {es : List (Str × Str)} {e : Str × Str}
    (h : es.getLast? = some e) : lookupA (buildDict es) e.1 = some e.2 := by
  have hne : es ≠ [] := by
    intro he
    rw [he] at h
    simp at h
  have hgl : es.getLast hne = e := by
    rw [List.getLast?_eq_getLast es hne] at h
    exact Option.some.inj h
  have hsplit := List.dropLast_append_getLast hne
  rw [hgl] at hsplit
  rw [← hsplit]
  exact lookupA_buildDict_append es.dropLast e

/-- Claim C4: a bare last stem section whose text is (case-sensitively) one of
the 17 modality-vocabulary tokens is assigned the key `modality` with the
section text as value (in particular `bold` in `sub-1_task-S_run-4_bold.nii.gz`);
a bare section that is not the last section, or a last bare section not in the
vocabulary, instead receives a `custom<N>` key, which is never `modality`. -/
theorem claim4_modality_detection :
    (∀ f : Str, ∀ hne : sectionsOf f "_".toList ≠ [],
      (findSubstr "-".toList ((sectionsOf f "_".toList).getLastD [])).isNone
        = true →
      (sectionsOf f "_".toList).getLastD [] ∈ modalityDefault →
      (fn2info f "_".toList "-".toList modalityDefault).bind
          (fun m => lookupA m modalityKey)
        = some ((sectionsOf f "_".toList).getLastD [])) ∧
    ((fn2info "sub-1_task-S_run-4_bold.nii.gz".toList "_".toList "-".toList
        modalityDefault).bind (fun m => lookupA m modalityKey)
      = some "bold".toList) ∧
    (∀ f : Str, ∀ i : Nat, ∀ hi : i < (sectionsOf f "_".toList).length,
      (findSubstr "-".toList (sectionsOf f "_".toList)[i]).isNone = true →
      (i + 1 < (sectionsOf f "_".toList).length
        ∨ (sectionsOf f "_".toList).getLastD [] ∉ modalityDefault) →
      ∃ es, fn2infoSections f "_".toList "-".toList modalityDefault
          = some es ∧
        es[i]?.map Prod.fst = some (customKey (i + 1)) ∧
        customKey (i + 1) ≠ modalityKey) := by
  refine ⟨?_, by decide, ?_⟩
  · intro f hne hbare hmem
    have hn : 0 < (sectionsOf f "_".toList).length := List.length_pos.mpr hne
    have hin : (sectionsOf f "_".toList).length - 1
        < (sectionsOf f "_".toList).length := by omega
    obtain ⟨es, hes, hlen, hget⟩ :=
      fn2infoSections_entry f "_".toList "-".toList modalityDefault
        (by decide) hin
    have hlastE : (sectionsOf f "_".toList).getLastD []
        = (sectionsOf f "_".toList)[(sectionsOf f "_".toList).length - 1] :=
      getLastD_eq_getElem rfl hin
    have hbare2 : (findSubstr "-".toList
        ((sectionsOf f "_".toList)[(sectionsOf f "_".toList).length - 1])).isNone
        = true := by
      rw [← hlastE]
      exact hbare
    have hmod : lastIsModality (sectionsOf f "_".toList) "-".toList
        modalityDefault = true := by
      rw [lastIsModality_iff hne, hbare, decide_eq_true hmem]
      decide
    rw [if_pos hbare2, if_pos ⟨hmod, rfl⟩] at hget
    have hgete : es[(sectionsOf f "_".toList).length - 1]?
        = some (modalityKey,
            (sectionsOf f "_".toList)[(sectionsOf f "_".toList).length - 1]) := by
      rw [hget]
      exact @splitEntry_at '-' [] modalityKey
        ((sectionsOf f "_".toList)[(sectionsOf f "_".toList).length - 1])
        (by decide)
    have hlast? : es.getLast?
        = some (modalityKey, (sectionsOf f "_".toList).getLastD []) := by
      rw [List.getLast?_eq_getElem?, hlen, hgete, ← hlastE]
    rw [fn2info_eq hes]
    show lookupA (insertA (buildDict es) extKey (stemExt f).2) modalityKey
        = some ((sectionsOf f "_".toList).getLastD [])
    rw [lookupA_insertA, if_neg (by decide)]
    exact lookupA_buildDict_last hlast?
  · intro f i hi hbare hnotmod
    obtain ⟨es, hes, hlen, hget⟩ :=
      fn2infoSections_entry f "_".toList "-".toList modalityDefault
        (by decide) hi
    have hnotmod2 : ¬ (lastIsModality (sectionsOf f "_".toList) "-".toList
        modalityDefault = true
        ∧ i = (sectionsOf f "_".toList).length - 1) := by
      rintro ⟨hmod, he⟩
      rcases hnotmod with hlt | hnm
      · omega
      · have hne : sectionsOf f "_".toList ≠ [] := by
          intro e
          rw [e] at hi
          simp at hi
        have hlast : (sectionsOf f "_".toList).getLastD []
            = (sectionsOf f "_".toList)[i] := getLastD_eq_getElem he hi
        rw [lastIsModality_iff hne, hlast, hbare] at hmod
        have hmem : (sectionsOf f "_".toList)[i] ∈ modalityDefault := by
          simpa using hmod
        refine hnm ?_
        rw [hlast]
        exact hmem
    rw [if_pos hbare, if_neg hnotmod2] at hget
    refine ⟨es, hes, ?_, customKey_ne_modalityKey (i + 1)⟩
    have hsp : splitEntry "-".toList (customKey (i + 1) ++ "-".toList
        ++ (sectionsOf f "_".toList)[i])
        = some (customKey (i + 1), (sectionsOf f "_".toList)[i]) :=
      @splitEntry_at '-' [] (customKey (i + 1)) ((sectionsOf f "_".toList)[i])
        (dash_not_mem_customKey (i + 1))
    rw [hget, hsp]
    rfl

/-- Witness for C4: both general parts instantiated on
`sub-1_task-S_run-4_bold.nii.gz` (for the positive part, last section `bold`)
and on `sub-002_TaskName_ses-001_Run-01_bold.nii.gz` at section 1 (for the
negative part, bare non-last section `TaskName`). -/
theorem claim4_witness :
    ((fn2info "sub-1_task-S_run-4_bold.nii.gz".toList "_".toList "-".toList
        modalityDefault).bind (fun m => lookupA m modalityKey)
      = some ((sectionsOf "sub-1_task-S_run-4_bold.nii.gz".toList
          "_".toList).getLastD [])) ∧
    (∃ es, fn2infoSections "sub-002_TaskName_ses-001_Run-01_bold.nii.gz".toList
        "_".toList "-".toList modalityDefault = some es ∧
      es[1]?.map Prod.fst = some (customKey 2) ∧
      customKey 2 ≠ modalityKey) :=
  ⟨claim4_modality_detection.1 "sub-1_task-S_run-4_bold.nii.gz".toList
     (by decide) (by decide) (by decide),
   claim4_modality_detection.2.2
     "sub-002_TaskName_ses-001_Run-01_bold.nii.gz".toList 1 (by decide)
     (by decide) (Or.inl (by decide))⟩

/-- Claim C9: `info2fn` mutates the caller's mapping by removing exactly the
`ext` entry when present (all other keys, values and their order unchanged:
the final state is the filter dropping the `ext` key); when `ext` is absent it
leaves the mapping unchanged, raises nothing, and produces the same filename
as if an empty extension had been supplied. -/
theorem claim9_encode_frame (info : InfoMap) (secSep valueSep : Str)
    (hnd : (info.map Prod.fst).Nodup) :
    ((lookupA info extKey).isSome = true →
      (info2fn info secSep valueSep).2
        = info.filter (fun kv => decide (kv.1 ≠ extKey))) ∧
    ((lookupA info extKey).isNone = true →
      (info2fn info secSep valueSep).2 = info ∧
      (info2fn info secSep valueSep).1
        = (info2fn (insertA info extKey []) secSep valueSep).1) := by
  constructor
  · intro hsome
    cases hl : lookupA info extKey with
    | none => rw [hl] at hsome; exact Bool.noConfusion hsome
    | some e =>
      have hstep : info2fn info secSep valueSep
          = (mkFn (popKey info extKey) secSep valueSep ++ e,
             popKey info extKey) := by
        rw [info2fn, hl]
      rw [hstep]
      exact popKey_eq_filter hnd
  · intro hnone
    cases hl : lookupA info extKey with
    | some e => rw [hl] at hnone; exact Bool.noConfusion hnone
    | none =>
      have hstep : info2fn info secSep valueSep
          = (mkFn info secSep valueSep, info) := by
        rw [info2fn, hl]
      have hnm : extKey ∉ info.map Prod.fst := by
        intro hm
        obtain ⟨kv, hkv, he⟩ := List.mem_map.mp hm
        have hlk := lookupA_eq_of_mem_nodup hnd hkv
        rw [he] at hlk
        rw [hlk] at hl
        exact Option.noConfusion hl
      have hl2 : lookupA (insertA info extKey []) extKey = some [] := by
        rw [lookupA_insertA, if_pos rfl]
      have hstep2 : info2fn (insertA info extKey []) secSep valueSep
          = (mkFn (popKey (insertA info extKey []) extKey) secSep valueSep
              ++ [], popKey (insertA info extKey []) extKey) := by
        rw [info2fn, hl2]
      have hpop : popKey (insertA info extKey []) extKey = info := by
        rw [insertA_append_of_not_mem [] hnm]
        exact popKey_append [] hnm
      rw [hstep, hstep2, hpop]
      exact ⟨rfl, by simp⟩

/-- Witness for C9: the frame property on the concrete mappings
`{sub: 01, ext: .nii}` (with `ext`) and `{sub: 01}` (without). -/
theorem claim9_witness :
    ((info2fn [("sub".toList, "01".toList), (extKey, ".nii".toList)]
        "_".toList "-".toList).2
      = [("sub".toList, "01".toList), (extKey, ".nii".toList)].filter
          (fun kv => decide (kv.1 ≠ extKey))) ∧
    ((info2fn [("sub".toList, "01".toList)] "_".toList "-".toList).2
        = [("sub".toList, "01".toList)] ∧
     (info2fn [("sub".toList, "01".toList)] "_".toList "-".toList).1
        = (info2fn (insertA [("sub".toList, "01".toList)] extKey [])
            "_".toList "-".toList).1) :=
  ⟨(claim9_encode_frame [("sub".toList, "01".toList), (extKey, ".nii".toList)]
      "_".toList "-".toList (by decide)).1 (by decide),
   (claim9_encode_frame [("sub".toList, "01".toList)]
      "_".toList "-".toList (by decide)).2 (by decide)⟩

/-- Claim C3 (counterexample): with the multi-character value separator `--`,
the spec says `key--val` decodes to key `key` and value `val`; the code slices
the value at `start + 1` (one character past the match start, not past the
whole separator), so the value is `-val`. -/
theorem claim3_counterexample :
    (fn2info "key--val".toList "_".toList "--".toList modalityDefault).bind
        (fun m => lookupA m "key".toList) = some "-val".toList ∧
    "-val".toList ≠ "val".toList := by
  decide

/-- Claim C3 (amended): `fn2info` accepts a multi-character value separator
`c :: t`, provided the separator contains no Python-regex metacharacter (the
separator is passed to `re.search`, so only metacharacter-free separators are
matched as literal substrings; with metacharacters the pattern is interpreted
as a regex, or `re.error` is raised).  For such a separator and a section
`k ++ (c :: t) ++ v` whose key part does not contain the separator's first
character, the key is the substring before the first occurrence of the
separator, but the value is the substring after the FIRST CHARACTER of that
occurrence (so the rest of the separator, `t`, is left as a prefix of the
value): the section decodes to `(k, t ++ v)`, not `(k, v)`. -/
theorem claim3_multichar_sep_amended (k v : Str) (c : Char) (t : Str)
    (hmeta : ∀ d ∈ c :: t, d ∉ regexMetachars)
    (hck : c ∉ k)
    (hclean : ∀ d ∈ k ++ (c :: t) ++ v, d ≠ '_' ∧ d ≠ '.' ∧ d ≠ '/') :
    fn2infoSections (k ++ (c :: t) ++ v) "_".toList (c :: t) modalityDefault
      = some [(k, t ++ v)] := by
  have hslash : '/' ∉ (k ++ (c :: t) ++ v) := fun hm =>
    ((hclean '/' hm).2.2) rfl
  have hdot : '.' ∉ (k ++ (c :: t) ++ v) := fun hm =>
    ((hclean '.' hm).2.1) rfl
  have hund : findSubstr ['_'] (k ++ (c :: t) ++ v) = none :=
    findSubstr_eq_none (fun hm => ((hclean '_' hm).1) rfl)
  have hbase : basename (k ++ (c :: t) ++ v) = (k ++ (c :: t) ++ v) :=
    basename_eq_self hslash
  have hdot2 : '.' ∉ basename (k ++ (c :: t) ++ v) := by
    rw [hbase]
    exact hdot
  have hse : stemExt (k ++ (c :: t) ++ v) = ((k ++ (c :: t) ++ v), []) := by
    rw [stemExt_no_dot hdot2, hbase]
  have hsecs : sectionsOf (k ++ (c :: t) ++ v) "_".toList
      = [k ++ (c :: t) ++ v] := by
    unfold sectionsOf
    rw [hse]
    exact splitOnSub_of_none hund
  have hfind : findSubstr (c :: t) (k ++ (c :: t) ++ v) = some k.length :=
    findSubstr_at v hck
  have hmk : mkSections [k ++ (c :: t) ++ v] (c :: t) modalityDefault
      = [k ++ (c :: t) ++ v] := by
    apply List.ext_getElem?
    intro n
    cases n with
    | zero =>
      have hm0 := mkSections_getElem [k ++ (c :: t) ++ v] (c :: t)
        modalityDefault (show (0 : Nat) < 1 by omega)
      rw [hm0, if_neg (by simp only [List.getElem_cons_zero, hfind]; simp)]
      simp [List.getElem_cons_zero]
    | succ n2 =>
      rw [List.getElem?_eq_none, List.getElem?_eq_none]
      · simp
      · rw [mkSections_length]
        simp
  have hsp : splitEntry (c :: t) (k ++ (c :: t) ++ v) = some (k, t ++ v) :=
    splitEntry_at v hck
  have hce : collectEntries (c :: t) [k ++ (c :: t) ++ v]
      = some [(k, t ++ v)] := by
    simp only [collectEntries]
    rw [hsp]
  simp only [fn2infoSections, if_neg (show ¬ "_".toList = [] by decide)]
  rw [hsecs, hmk, hce]

/-- Witness for the amended C3: the metacharacter-free separator `--` on
`key--val` decodes to key `key` and value `-val`. -/
theorem claim3_amended_witness :
    (∀ d ∈ '-' :: "-".toList, d ∉ regexMetachars) ∧
    fn2infoSections ("key".toList ++ ('-' :: "-".toList) ++ "val".toList)
        "_".toList ('-' :: "-".toList) modalityDefault
      = some [("key".toList, "-".toList ++ "val".toList)] :=
  ⟨by decide,
   claim3_multichar_sep_amended "key".toList "val".toList '-' "-".toList
     (by decide) (by decide) (by decide)⟩

/-- Claim C1 (counterexample): the claim's alphabet restriction omits the path
separator; taking `<id> = a/b` (which contains none of `'_'`, `'-'`, `'.'`)
the round trip fails, because `fn2info` strips everything up to the last `'/'`
with `os.path.basename`. -/
theorem claim1_counterexample :
    roundtrip "sub-a/b_task-t_run-r_bold.nii.gz".toList
      ≠ some "sub-a/b_task-t_run-r_bold.nii.gz".toList := by
  decide

set_option maxHeartbeats 2000000 in
/-- Claim C1 (amended): for every filename of the form
`sub-<id>_task-<t>_run-<r>_bold.nii.gz` where `<id>`, `<t>`, `<r>` are
non-empty strings containing none of the section separator `'_'`, the value
separator `'-'`, `'.'`, and additionally none of the path separator `'/'`
(which the original claim omitted and which breaks the round trip through
`os.path.basename`), `info2fn (fn2info f) = f` with the default separators. -/
theorem claim1_roundtrip_amended (id tk rn : Str)
    (h1 : id ≠ []) (h2 : tk ≠ []) (h3 : rn ≠ [])
    (hc : ∀ c ∈ id ++ tk ++ rn, c ≠ '_' ∧ c ≠ '-' ∧ c ≠ '.' ∧ c ≠ '/') :
    roundtrip ("sub-".toList ++ id ++ "_task-".toList ++ tk
        ++ "_run-".toList ++ rn ++ "_bold.nii.gz".toList)
      = some ("sub-".toList ++ id ++ "_task-".toList ++ tk
        ++ "_run-".toList ++ rn ++ "_bold.nii.gz".toList) := by
  have hid : ∀ c ∈ id, c ≠ '_' ∧ c ≠ '-' ∧ c ≠ '.' ∧ c ≠ '/' := fun c hm =>
    hc c (List.mem_append.mpr (Or.inl (List.mem_append.mpr (Or.inl hm))))
  have htk : ∀ c ∈ tk, c ≠ '_' ∧ c ≠ '-' ∧ c ≠ '.' ∧ c ≠ '/' := fun c hm =>
    hc c (List.mem_append.mpr (Or.inl (List.mem_append.mpr (Or.inr hm))))
  have hrn : ∀ c ∈ rn, c ≠ '_' ∧ c ≠ '-' ∧ c ≠ '.' ∧ c ≠ '/' := fun c hm =>
    hc c (List.mem_append.mpr (Or.inr hm))
  have hslash : '/' ∉ ("sub-".toList ++ id ++ "_task-".toList ++ tk
      ++ "_run-".toList ++ rn ++ "_bold.nii.gz".toList) := by
    intro hm
    simp only [List.mem_append] at hm
    rcases hm with ((((((h | h) | h) | h) | h) | h) | h)
    · revert h; decide
    · exact (hid '/' h).2.2.2 rfl
    · revert h; decide
    · exact (htk '/' h).2.2.2 rfl
    · revert h; decide
    · exact (hrn '/' h).2.2.2 rfl
    · revert h; decide
  have hdotstem : '.' ∉ ("sub-".toList ++ id ++ "_task-".toList ++ tk
      ++ "_run-".toList ++ rn ++ "_bold".toList) := by
    intro hm
    simp only [List.mem_append] at hm
    rcases hm with ((((((h | h) | h) | h) | h) | h) | h)
    · revert h; decide
    · exact (hid '.' h).2.2.1 rfl
    · revert h; decide
    · exact (htk '.' h).2.2.1 rfl
    · revert h; decide
    · exact (hrn '.' h).2.2.1 rfl
    · revert h; decide
  have hu1 : ('_' : Char) ∉ ("sub".toList ++ '-' :: id) := by
    intro hm
    rcases List.mem_append.mp hm with h | h
    · revert h; decide
    · rcases List.mem_cons.mp h with h | h
      · revert h; decide
      · exact (hid '_' h).1 rfl
  have hu2 : ('_' : Char) ∉ ("task".toList ++ '-' :: tk) := by
    intro hm
    rcases List.mem_append.mp hm with h | h
    · revert h; decide
    · rcases List.mem_cons.mp h with h | h
      · revert h; decide
      · exact (htk '_' h).1 rfl
  have hu3 : ('_' : Char) ∉ ("run".toList ++ '-' :: rn) := by
    intro hm
    rcases List.mem_append.mp hm with h | h
    · revert h; decide
    · rcases List.mem_cons.mp h with h | h
      · revert h; decide
      · exact (hrn '_' h).1 rfl
  have hb : basename ("sub-".toList ++ id ++ "_task-".toList ++ tk
      ++ "_run-".toList ++ rn ++ "_bold.nii.gz".toList)
      = ("sub-".toList ++ id ++ "_task-".toList ++ tk ++ "_run-".toList
          ++ rn ++ "_bold".toList) ++ '.' :: "nii.gz".toList := by
    rw [basename_eq_self hslash,
      show "_bold.nii.gz".toList = "_bold".toList ++ '.' :: "nii.gz".toList
        from by decide]
    simp [List.append_assoc]
  have he : stemExt ("sub-".toList ++ id ++ "_task-".toList ++ tk
      ++ "_run-".toList ++ rn ++ "_bold.nii.gz".toList)
      = ("sub-".toList ++ id ++ "_task-".toList ++ tk ++ "_run-".toList
          ++ rn ++ "_bold".toList, '.' :: "nii.gz".toList) :=
    stemExt_dot hb hdotstem
  have hstemeq : "sub-".toList ++ id ++ "_task-".toList ++ tk
      ++ "_run-".toList ++ rn ++ "_bold".toList
      = ("sub".toList ++ '-' :: id) ++ ['_']
        ++ (("task".toList ++ '-' :: tk) ++ ['_']
          ++ (("run".toList ++ '-' :: rn) ++ ['_'] ++ "bold".toList)) := by
    rw [show "sub-".toList = "sub".toList ++ ['-'] from by decide,
        show "_task-".toList = ['_'] ++ ("task".toList ++ ['-']) from by decide,
        show "_run-".toList = ['_'] ++ ("run".toList ++ ['-']) from by decide,
        show "_bold".toList = ['_'] ++ "bold".toList from by decide]
    simp [List.append_assoc]
  have hsecs : sectionsOf ("sub-".toList ++ id ++ "_task-".toList ++ tk
      ++ "_run-".toList ++ rn ++ "_bold.nii.gz".toList) "_".toList
      = ["sub".toList ++ '-' :: id, "task".toList ++ '-' :: tk,
         "run".toList ++ '-' :: rn, "bold".toList] := by
    unfold sectionsOf
    rw [he]
    show splitOnSub ['_'] ("sub-".toList ++ id ++ "_task-".toList ++ tk
      ++ "_run-".toList ++ rn ++ "_bold".toList) = _
    rw [hstemeq, splitOnSub_cons _ hu1, splitOnSub_cons _ hu2,
      splitOnSub_cons _ hu3,
      splitOnSub_of_none (show findSubstr ['_'] "bold".toList = none from
        findSubstr_eq_none (by decide))]
  have hlim : lastIsModality ["sub".toList ++ '-' :: id,
      "task".toList ++ '-' :: tk, "run".toList ++ '-' :: rn,
      "bold".toList] "-".toList modalityDefault = true := by
    unfold lastIsModality
    simp only [List.map_cons, List.map_nil, List.getLastD_cons]
    decide
  have hsome := fn2infoSections_isSome ("sub-".toList ++ id
    ++ "_task-".toList ++ tk ++ "_run-".toList ++ rn
    ++ "_bold.nii.gz".toList) "_".toList "-".toList modalityDefault (by decide)
  obtain ⟨es, hes⟩ := Option.isSome_iff_exists.mp hsome
  obtain ⟨hlen, hget⟩ := fn2infoSections_getElem hes
  have hlen4 : (sectionsOf ("sub-".toList ++ id ++ "_task-".toList ++ tk
      ++ "_run-".toList ++ rn ++ "_bold.nii.gz".toList) "_".toList).length
      = 4 := by
    rw [hsecs]
    rfl
  have hesl : es = [("sub".toList, id), ("task".toList, tk),
      ("run".toList, rn), (modalityKey, "bold".toList)] := by
    apply List.ext_getElem?
    intro n
    cases n with
    | zero =>
      have hg := hget 0 (by omega)
      simp only [hsecs, List.getElem_cons_zero] at hg
      rw [show findSubstr "-".toList ("sub".toList ++ '-' :: id)
          = some "sub".toList.length from @findSubstr_at '-' [] "sub".toList id
          (by decide)] at hg
      rw [if_neg (by simp)] at hg
      rw [show splitEntry "-".toList ("sub".toList ++ '-' :: id)
          = some ("sub".toList, id) from splitEntry_single id (by decide)] at hg
      rw [hg]
      rfl
    | succ n1 =>
      cases n1 with
      | zero =>
        have hg := hget 1 (by omega)
        simp only [hsecs, List.getElem_cons_succ, List.getElem_cons_zero] at hg
        rw [show findSubstr "-".toList ("task".toList ++ '-' :: tk)
            = some "task".toList.length from @findSubstr_at '-' [] "task".toList
            tk (by decide)] at hg
        rw [if_neg (by simp)] at hg
        rw [show splitEntry "-".toList ("task".toList ++ '-' :: tk)
            = some ("task".toList, tk) from splitEntry_single tk (by decide)]
          at hg
        rw [hg]
        rfl
      | succ n2 =>
        cases n2 with
        | zero =>
          have hg := hget 2 (by omega)
          simp only [hsecs, List.getElem_cons_succ, List.getElem_cons_zero]
            at hg
          rw [show findSubstr "-".toList ("run".toList ++ '-' :: rn)
              = some "run".toList.length from @findSubstr_at '-' []
              "run".toList rn (by decide)] at hg
          rw [if_neg (by simp)] at hg
          rw [show splitEntry "-".toList ("run".toList ++ '-' :: rn)
              = some ("run".toList, rn) from splitEntry_single rn (by decide)]
            at hg
          rw [hg]
          rfl
        | succ n3 =>
          cases n3 with
          | zero =>
            have hg := hget 3 (by omega)
            simp only [hsecs, List.getElem_cons_succ, List.getElem_cons_zero]
              at hg
            rw [if_pos (show (findSubstr "-".toList "bold".toList).isNone
                = true from by decide)] at hg
            rw [if_pos ⟨hlim, by simp⟩] at hg
            rw [show splitEntry "-".toList (modalityKey ++ "-".toList
                ++ "bold".toList) = some (modalityKey, "bold".toList) from
              @splitEntry_at '-' [] modalityKey "bold".toList (by decide)] at hg
            rw [hg]
            rfl
          | succ n4 =>
            rw [List.getElem?_eq_none (by omega),
              List.getElem?_eq_none (by
                simp only [List.length_cons, List.length_nil]
                omega)]
  have hndk : (([("sub".toList, id), ("task".toList, tk), ("run".toList, rn),
      (modalityKey, "bold".toList)] : InfoMap).map Prod.fst).Nodup := by
    simp only [List.map_cons, List.map_nil]
    decide
  have hbd : buildDict [("sub".toList, id), ("task".toList, tk),
      ("run".toList, rn), (modalityKey, "bold".toList)]
      = [("sub".toList, id), ("task".toList, tk), ("run".toList, rn),
         (modalityKey, "bold".toList)] := buildDict_eq_self hndk
  have hfn : fn2info ("sub-".toList ++ id ++ "_task-".toList ++ tk
      ++ "_run-".toList ++ rn ++ "_bold.nii.gz".toList) "_".toList
      "-".toList modalityDefault
      = some (insertA [("sub".toList, id), ("task".toList, tk),
          ("run".toList, rn), (modalityKey, "bold".toList)] extKey
          ('.' :: "nii.gz".toList)) := by
    rw [fn2info_eq hes, hesl, hbd, he]
  have hkeys : extKey ∉ ([("sub".toList, id), ("task".toList, tk),
      ("run".toList, rn), (modalityKey, "bold".toList)]
        : InfoMap).map Prod.fst := by
    simp only [List.map_cons, List.map_nil]
    decide
  have hins : insertA [("sub".toList, id), ("task".toList, tk),
      ("run".toList, rn), (modalityKey, "bold".toList)] extKey
      ('.' :: "nii.gz".toList)
      = [("sub".toList, id), ("task".toList, tk), ("run".toList, rn),
         (modalityKey, "bold".toList)] ++ [(extKey, '.' :: "nii.gz".toList)] :=
    insertA_append_of_not_mem ('.' :: "nii.gz".toList) hkeys
  have hlook : lookupA (insertA [("sub".toList, id), ("task".toList, tk),
      ("run".toList, rn), (modalityKey, "bold".toList)] extKey
      ('.' :: "nii.gz".toList)) extKey = some ('.' :: "nii.gz".toList) := by
    rw [lookupA_insertA, if_pos rfl]
  have hpop : popKey (insertA [("sub".toList, id), ("task".toList, tk),
      ("run".toList, rn), (modalityKey, "bold".toList)] extKey
      ('.' :: "nii.gz".toList)) extKey
      = [("sub".toList, id), ("task".toList, tk), ("run".toList, rn),
         (modalityKey, "bold".toList)] := by
    rw [hins]
    exact popKey_append ('.' :: "nii.gz".toList) hkeys
  have hinfo : info2fn (insertA [("sub".toList, id), ("task".toList, tk),
      ("run".toList, rn), (modalityKey, "bold".toList)] extKey
      ('.' :: "nii.gz".toList)) "_".toList "-".toList
      = (mkFn (popKey (insertA [("sub".toList, id), ("task".toList, tk),
          ("run".toList, rn), (modalityKey, "bold".toList)] extKey
          ('.' :: "nii.gz".toList)) extKey) "_".toList "-".toList
          ++ '.' :: "nii.gz".toList,
         popKey (insertA [("sub".toList, id), ("task".toList, tk),
          ("run".toList, rn), (modalityKey, "bold".toList)] extKey
          ('.' :: "nii.gz".toList)) extKey) := by
    rw [info2fn, hlook]
  rw [hpop] at hinfo
  have hmk : mkFn [("sub".toList, id), ("task".toList, tk), ("run".toList, rn),
      (modalityKey, "bold".toList)] "_".toList "-".toList
      = ("sub".toList ++ "-".toList ++ id) ++ "_".toList
        ++ (("task".toList ++ "-".toList ++ tk) ++ "_".toList
          ++ (("run".toList ++ "-".toList ++ rn) ++ "_".toList
            ++ "bold".toList)) := by
    unfold mkFn
    simp only [List.map_cons, List.map_nil]
    rw [if_neg (show ¬ ("custom".toList.isPrefixOf "sub".toList
        || decide ("sub".toList = modalityKey)) = true from by decide)]
    rw [if_neg (show ¬ ("custom".toList.isPrefixOf "task".toList
        || decide ("task".toList = modalityKey)) = true from by decide)]
    rw [if_neg (show ¬ ("custom".toList.isPrefixOf "run".toList
        || decide ("run".toList = modalityKey)) = true from by decide)]
    rfl
  unfold roundtrip
  rw [hfn]
  show some ((info2fn (insertA [("sub".toList, id), ("task".toList, tk),
      ("run".toList, rn), (modalityKey, "bold".toList)] extKey
      ('.' :: "nii.gz".toList)) "_".toList "-".toList).1)
    = some ("sub-".toList ++ id ++ "_task-".toList ++ tk
        ++ "_run-".toList ++ rn ++ "_bold.nii.gz".toList)
  rw [hinfo]
  show some (mkFn [("sub".toList, id), ("task".toList, tk), ("run".toList, rn),
      (modalityKey, "bold".toList)] "_".toList "-".toList
      ++ '.' :: "nii.gz".toList)
    = some ("sub-".toList ++ id ++ "_task-".toList ++ tk
        ++ "_run-".toList ++ rn ++ "_bold.nii.gz".toList)
  rw [hmk]
  refine congrArg some ?_
  rw [show "sub-".toList = "sub".toList ++ "-".toList from by decide,
      show "_task-".toList = "_".toList ++ ("task".toList ++ "-".toList)
        from by decide,
      show "_run-".toList = "_".toList ++ ("run".toList ++ "-".toList)
        from by decide,
      show "_bold.nii.gz".toList = "_".toList ++ ("bold".toList
        ++ '.' :: "nii.gz".toList) from by decide]
  simp [List.append_assoc]

/-- Witness for the amended C1: the round trip on
`sub-002_task-A_run-01_bold.nii.gz`. -/
theorem claim1_amended_witness :
    roundtrip ("sub-".toList ++ "002".toList ++ "_task-".toList ++ "A".toList
        ++ "_run-".toList ++ "01".toList ++ "_bold.nii.gz".toList)
      = some ("sub-".toList ++ "002".toList ++ "_task-".toList ++ "A".toList
        ++ "_run-".toList ++ "01".toList ++ "_bold.nii.gz".toList) :=
  claim1_roundtrip_amended "002".toList "A".toList "01".toList (by decide)
    (by decide) (by decide) (by decide)
